import Mathlib

/-!
Verification of the Homemade-SMP-rCore-Tutorial kernel and its easy-fs
library.  Rust sources are embedded shallowly: machine integers become
`Nat`/`Int` (with explicit wrap-around where the code relies on it),
vectors and deques become `List`, and each syscall becomes a pure
function from the state it reads to the value it returns together with
the state it leaves behind.  Parts of the repository that the syscalls
call into but whose sources are not present (the `mm` module, the os
`fs` glue module and the easy-fs disk layout) are modelled from the
specification; such definitions say so in their doc comments.
-/

set_option maxRecDepth 4000

namespace OS

/-- Ready-queue view of a task control block: `tid` identifies the
thread (insertion identity), `stride` is the field the scheduler loop of
`src/os/src/task/manager.rs` compares. -/
structure TCB where
  tid : Nat
  stride : Nat
deriving DecidableEq

/-- The scan loop inside `TaskManager::fetch` (src/os/src/task/manager.rs
lines 38-46).  `minStride` is the value read from the front element
before the loop; the loop body is `if block.stride < min_stride
{ min_stride_block = index }; index += 1` — note that `min_stride`
itself is never updated.  `idx` plays `index`, `acc` plays
`min_stride_block`. -/
def fetchScan (minStride : Nat) : List TCB → Nat → Nat → Nat
  | [], _, acc => acc
  | t :: rest, idx, acc =>
      fetchScan minStride rest (idx + 1) (if t.stride < minStride then idx else acc)

/-- `TaskManager::fetch` (src/os/src/task/manager.rs lines 34-49):
`none` on the empty queue, otherwise `ready_queue.remove(min_stride_block)`
— the element at the index chosen by the scan loop is taken out and the
rest of the queue keeps its order. -/
def fetch (q : List TCB) : Option (TCB × List TCB) :=
  if q.isEmpty then none
  else
    let minStride := (q.headD ⟨0, 0⟩).stride
    let i := fetchScan minStride q 0 0
    some (q.getD i ⟨0, 0⟩, q.eraseIdx i)

/-- C1: `TaskManager::fetch` is claimed to remove and return the queued
thread of numerically smallest stride.  The loop never updates
`min_stride`, so on the stride queue [5, 3, 4] it removes the stride-4
thread even though a stride-3 thread is queued: the claim fails on the
code (the `none` ↔ empty part does hold and is included). -/
theorem C1_fetch_not_min_stride :
    fetch [⟨0, 5⟩, ⟨1, 3⟩, ⟨2, 4⟩] = some (⟨2, 4⟩, [⟨0, 5⟩, ⟨1, 3⟩])
      ∧ (∃ t ∈ [(⟨0, 5⟩ : TCB), ⟨1, 3⟩, ⟨2, 4⟩], t.stride < 4)
      ∧ fetch [] = none := by
  decide

/-- `sys_set_priority` (src/os/src/syscall/process.rs lines 350-356): the
body only emits a trace line and returns -1; the priority argument is
ignored. -/
def sys_set_priority (_prio : Int) : Int := -1

/-- C9: the claim says `sys_set_priority p` returns 0 for every p ≥ 2 and
-1 for p < 2; the code returns -1 for every argument, in particular for
p = 2. -/
theorem C9_set_priority_stub :
    sys_set_priority 2 = -1 ∧ sys_set_priority 100 = -1 ∧ sys_set_priority 1 = -1 := by
  decide

/-- Child-process view used by `sys_waitpid`
(src/os/src/syscall/process.rs lines 110-143): pid, zombie flag and exit
code of one entry of `inner.children`. -/
structure Child where
  pid : Nat
  isZombie : Bool
  exitCode : Int
deriving DecidableEq

/-- The match test `pid == -1 || pid as usize == p.getpid()`; the
`as usize` cast of an `isize` is reduction mod 2^64. -/
def pidMatches (pid : Int) (c : Child) : Bool :=
  pid == -1 || (pid % (2 ^ 64 : Int)).toNat == c.pid

/-- `children.iter().enumerate().find(|(_, p)| p.is_zombie && match)`:
first zombie child matching `pid`, with its index. -/
def findZombie (pid : Int) : List Child → Nat → Option (Nat × Child)
  | [], _ => none
  | c :: rest, idx =>
      if c.isZombie && pidMatches pid c then some (idx, c)
      else findZombie pid rest (idx + 1)

/-- `sys_waitpid` (src/os/src/syscall/process.rs lines 110-143).  Result:
(returned value, children list afterwards, the exit code written through
`exit_code_ptr` if any). -/
def sys_waitpid (children : List Child) (pid : Int) : Int × List Child × Option Int :=
  if !(children.any fun p => pidMatches pid p) then (-1, children, none)
  else
    match findZombie pid children 0 with
    | some (idx, child) => ((child.pid : Int), children.eraseIdx idx, some child.exitCode)
    | none => (-2, children, none)

theorem findZombie_shift (pid : Int) (l : List Child) (k : Nat) :
    findZombie pid l (k + 1) = (findZombie pid l k).map fun p => (p.1 + 1, p.2) := by
  induction l generalizing k with
  | nil => rfl
  | cons c rest ih =>
      by_cases h : (c.isZombie && pidMatches pid c) = true
      · simp [findZombie, h]
      · simp [findZombie, h, ih]

theorem findZombie_found (pid : Int) (l : List Child)
    (h : ∃ c ∈ l, c.isZombie = true ∧ pidMatches pid c = true) :
    ∃ i c, findZombie pid l 0 = some (i, c) ∧ l.get? i = some c ∧
      c.isZombie = true ∧ pidMatches pid c = true := by
  induction l with
  | nil => simp at h
  | cons hd rest ih =>
      by_cases hhd : (hd.isZombie && pidMatches pid hd) = true
      · refine ⟨0, hd, ?_, rfl, ?_, ?_⟩
        · simp [findZombie, hhd]
        · exact (Bool.and_eq_true _ _ |>.mp hhd).1
        · exact (Bool.and_eq_true _ _ |>.mp hhd).2
      · have hrest : ∃ c ∈ rest, c.isZombie = true ∧ pidMatches pid c = true := by
          rcases h with ⟨c, hc, hz, hm⟩
          rcases List.mem_cons.mp hc with rfl | hmem
          · exact absurd (by simp [hz, hm]) hhd
          · exact ⟨c, hmem, hz, hm⟩
        rcases ih hrest with ⟨i, c, hfind, hget, hz, hm⟩
        refine ⟨i + 1, c, ?_, by simpa using hget, hz, hm⟩
        simp [findZombie, hhd, findZombie_shift, hfind]

theorem findZombie_none (pid : Int) (l : List Child)
    (h : ∀ c ∈ l, ¬(c.isZombie = true ∧ pidMatches pid c = true)) :
    findZombie pid l 0 = none := by
  induction l with
  | nil => rfl
  | cons hd rest ih =>
      have hhd : (hd.isZombie && pidMatches pid hd) = false := by
        have hnot := h hd (List.mem_cons_self hd rest)
        cases hz : hd.isZombie with
        | false => simp
        | true =>
            cases hm : pidMatches pid hd with
            | false => simp
            | true => exact absurd ⟨hz, hm⟩ hnot
      have := ih fun c hc => h c (List.mem_cons_of_mem hd hc)
      simp [findZombie, hhd, findZombie_shift, this]

/-- C6: `sys_waitpid` returns -1 when no child matches `pid` (with
pid = -1 matching any child); returns -2 when a child matches but no
matching child is a zombie; and otherwise removes one matching zombie
child, writes its exit code through `out` and returns its pid. -/
theorem C6_waitpid_spec (children : List Child) (pid : Int) :
    ((∀ c ∈ children, pidMatches pid c = false) →
        sys_waitpid children pid = (-1, children, none))
    ∧ ((∃ c ∈ children, pidMatches pid c = true) →
        (∀ c ∈ children, ¬(c.isZombie = true ∧ pidMatches pid c = true)) →
        sys_waitpid children pid = (-2, children, none))
    ∧ ((∃ c ∈ children, c.isZombie = true ∧ pidMatches pid c = true) →
        ∃ i c, children.get? i = some c ∧ c.isZombie = true ∧
          pidMatches pid c = true ∧
          sys_waitpid children pid =
            ((c.pid : Int), children.eraseIdx i, some c.exitCode)) := by
  refine ⟨?_, ?_, ?_⟩
  · intro hnone
    have hany : (children.any fun p => pidMatches pid p) = false := by
      simp only [List.any_eq_false]
      intro c hc
      simp [hnone c hc]
    simp [sys_waitpid, hany]
  · intro hmatch hnozombie
    have hany : (children.any fun p => pidMatches pid p) = true := by
      rcases hmatch with ⟨c, hc, hm⟩
      exact List.any_eq_true.mpr ⟨c, hc, hm⟩
    simp [sys_waitpid, hany, findZombie_none pid children hnozombie]
  · intro hzomb
    rcases findZombie_found pid children hzomb with ⟨i, c, hfind, hget, hz, hm⟩
    refine ⟨i, c, hget, hz, hm, ?_⟩
    have hany : (children.any fun p => pidMatches pid p) = true := by
      rcases hzomb with ⟨c', hc', _, hm'⟩
      exact List.any_eq_true.mpr ⟨c', hc', hm'⟩
    simp [sys_waitpid, hany, hfind]

/-- Witness for C6 at a concrete child list: pid 7 is a zombie with exit
code 42 and is reaped; the instance discharges each hypothesis of
`C6_waitpid_spec` at that input. -/
theorem C6_waitpid_spec_witness :
    ∃ i c, ([⟨5, false, 0⟩, ⟨7, true, 42⟩] : List Child).get? i = some c ∧
      c.isZombie = true ∧ pidMatches (-1) c = true ∧
      sys_waitpid [⟨5, false, 0⟩, ⟨7, true, 42⟩] (-1) =
        ((c.pid : Int), ([⟨5, false, 0⟩, ⟨7, true, 42⟩] : List Child).eraseIdx i,
          some c.exitCode) :=
  (C6_waitpid_spec [⟨5, false, 0⟩, ⟨7, true, 42⟩] (-1)).2.2
    ⟨⟨7, true, 42⟩, by decide, by decide, by decide⟩

end OS

namespace OS

/-! ### Per-process resource accounting (src/os/src/syscall/sync.rs)

One `SyncState` holds the accounting columns of one primitive family
(mutexes or semaphores) of one process: `slots` records which entries of
`mutex_list`/`semaphore_list` are `Some`, and `available`, `need`,
`allocated` are the Banker's matrices.  Thread ids index rows, primitive
ids index columns. -/

structure SyncState where
  slots : List Bool
  available : List Nat
  need : List (List Nat)
  allocated : List (List Nat)
deriving DecidableEq

/-- `list.iter().enumerate().find(|(_, item)| item.is_none())`: index of
the first free slot. -/
def findFreeSlot : List Bool → Nat → Option Nat
  | [], _ => none
  | b :: rest, i => if b then findFreeSlot rest (i + 1) else some i

/-- Shared shape of `sys_mutex_create` (src/os/src/syscall/sync.rs lines
26-72, capacity 1) and `sys_semaphore_create` (lines 170-214, capacity
`res_count`): reuse the first free slot, setting `available[id]` to the
capacity and zeroing column `id` of `need` and `allocated`; otherwise
push a fresh column.  Returns the chosen id with the new state. -/
def sync_create (st : SyncState) (cap : Nat) : Nat × SyncState :=
  match findFreeSlot st.slots 0 with
  | some id =>
      (id,
       { slots := st.slots.set id true
         available := st.available.set id cap
         need := st.need.map fun row => row.set id 0
         allocated := st.allocated.map fun row => row.set id 0 })
  | none =>
      (st.slots.length,
       { slots := st.slots ++ [true]
         available := st.available ++ [cap]
         need := st.need.map fun row => row ++ [0]
         allocated := st.allocated.map fun row => row ++ [0] })

def sys_mutex_create (st : SyncState) (_blocking : Bool) : Nat × SyncState :=
  sync_create st 1

def sys_semaphore_create (st : SyncState) (res_count : Nat) : Nat × SyncState :=
  sync_create st res_count

/-- `row.set r (f row[r])`: update one cell of a vector. -/
def updRow (row : List Nat) (r : Nat) (f : Nat → Nat) : List Nat :=
  row.set r (f (row.getD r 0))

/-- Update one cell of a matrix (`m[t][r] = f m[t][r]`). -/
def updMat (m : List (List Nat)) (t r : Nat) (f : Nat → Nat) : List (List Nat) :=
  m.set t (updRow (m.getD t []) r f)

/-- The inner check of the Banker's loop: `need[task][j] > work[j]` for
some index `j` of `work` sets `cant_finish`; this is its negation. -/
def rowLE (nrow work : List Nat) : Bool :=
  (List.range work.length).all fun j => nrow.getD j 0 ≤ work.getD j 0

/-- `for (j, work_content) in work.iter_mut() { *work_content +=
allocated[task][j] }`. -/
def addRow (work arow : List Nat) : List Nat :=
  work.mapIdx fun j w => w + arow.getD j 0

/-- One `task_index` step of the Banker's pass: skip finished tasks;
when the whole `need` row fits under `work`, mark the task finished, add
its `allocated` row to `work` and set `updateable`. -/
def bankersStep (need alloc : List (List Nat)) (acc : List Bool × List Nat × Bool)
    (ti : Nat) : List Bool × List Nat × Bool :=
  if acc.1.getD ti true then acc
  else if rowLE (need.getD ti []) acc.2.1 then
    (acc.1.set ti true, addRow acc.2.1 (alloc.getD ti []), true)
  else acc

/-- `for task_index in 0..total_task_num { ... }` — one pass of the
outer loop, folded over the index list. -/
def bankersPassAux (need alloc : List (List Nat)) :
    List Nat → (List Bool × List Nat × Bool) → List Bool × List Nat × Bool
  | [], acc => acc
  | ti :: rest, acc => bankersPassAux need alloc rest (bankersStep need alloc acc ti)

def bankersPass (need alloc : List (List Nat)) (fin : List Bool) (wk : List Nat) :
    List Bool × List Nat × Bool :=
  bankersPassAux need alloc (List.range need.length) (fin, wk, false)

/-- `loop { let mut updateable = false; ...; if updateable == false
{ break; } }`, with explicit fuel.  Each pass that does not break marks
at least one extra task finished, so fuel `need.length + 1` never runs
out (`bankersLoop_stable` below). -/
def bankersLoop (need alloc : List (List Nat)) :
    Nat → List Bool → List Nat → List Bool × List Nat
  | 0, fin, wk => (fin, wk)
  | fuel + 1, fin, wk =>
      let next := bankersPass need alloc fin wk
      if next.2.2 then bankersLoop need alloc fuel next.1 next.2.1
      else (next.1, next.2.1)

/-- The whole Banker's run of src/os/src/syscall/sync.rs lines 91-129 /
256-294: all tasks start unfinished, `work` starts as a clone of
`available`. -/
def bankersRun (avail : List Nat) (need alloc : List (List Nat)) : List Bool × List Nat :=
  bankersLoop need alloc (need.length + 1) (List.replicate need.length false) avail

/-- `for finish_status in finished { if finish_status == false
{ is_deadlocked = true } }`. -/
def isDeadlocked (avail : List Nat) (need alloc : List (List Nat)) : Bool :=
  (bankersRun avail need alloc).1.any fun b => !b

/-- Common body of `sys_mutex_lock` (src/os/src/syscall/sync.rs lines
74-144) and `sys_semaphore_down` (lines 239-307) over the matrices of
the respective primitive family: first `need[t][id] += 1`; when
detection is enabled run Banker's and on a deadlock verdict revert the
increment and return -0xDEAD without blocking; otherwise block on the
primitive (outside this state) and afterwards `need[t][id] -= 1`,
`available[id] -= 1`, `allocated[t][id] += 1` and return 0. -/
def blockingAcquire (detect : Bool) (st : SyncState) (t id : Nat) : Int × SyncState :=
  let st1 : SyncState := { st with need := updMat st.need t id (· + 1) }
  if detect && isDeadlocked st1.available st1.need st1.allocated then
    (-0xDEAD, { st1 with need := updMat st1.need t id (· - 1) })
  else
    (0, { st1 with
          need := updMat st1.need t id (· - 1)
          available := updRow st1.available id (· - 1)
          allocated := updMat st1.allocated t id (· + 1) })

def sys_mutex_lock (detect : Bool) (st : SyncState) (t id : Nat) : Int × SyncState :=
  blockingAcquire detect st t id

def sys_semaphore_down (detect : Bool) (st : SyncState) (t id : Nat) : Int × SyncState :=
  blockingAcquire detect st t id

/-- Common body of `sys_mutex_unlock` (src/os/src/syscall/sync.rs lines
146-168) and `sys_semaphore_up` (lines 216-237): `allocated[t][id] -= 1`,
`available[id] += 1`, wake the primitive, return 0. -/
def releaseOne (st : SyncState) (t id : Nat) : Int × SyncState :=
  (0, { st with
        allocated := updMat st.allocated t id (· - 1)
        available := updRow st.available id (· + 1) })

def sys_mutex_unlock (st : SyncState) (t id : Nat) : Int × SyncState :=
  releaseOne st t id

def sys_semaphore_up (st : SyncState) (t id : Nat) : Int × SyncState :=
  releaseOne st t id

end OS

namespace OS

theorem getD_set_self {α : Type} (l : List α) (i : Nat) (v d : α) (h : i < l.length) :
    (l.set i v).getD i d = v := by
  induction l generalizing i with
  | nil => simp at h
  | cons hd tl ih =>
      cases i with
      | zero => rfl
      | succ j => exact ih j (by simpa using h)

theorem getD_set_ne {α : Type} (l : List α) (i j : Nat) (v d : α) (h : i ≠ j) :
    (l.set i v).getD j d = l.getD j d := by
  induction l generalizing i j with
  | nil => simp [List.set]
  | cons hd tl ih =>
      cases i with
      | zero =>
          cases j with
          | zero => exact absurd rfl h
          | succ j' => rfl
      | succ i' =>
          cases j with
          | zero => rfl
          | succ j' => exact ih i' j' fun hc => h (by simp [hc])

theorem set_getD_self {α : Type} (l : List α) (i : Nat) (d : α) (h : i < l.length) :
    l.set i (l.getD i d) = l := by
  induction l generalizing i with
  | nil => simp at h
  | cons hd tl ih =>
      cases i with
      | zero => rfl
      | succ j => exact congrArg (List.cons hd) (ih j (by simpa using h))

theorem updMat_inc_dec (m : List (List Nat)) (t r : Nat)
    (ht : t < m.length) (hr : r < (m.getD t []).length) :
    updMat (updMat m t r (· + 1)) t r (· - 1) = m := by
  unfold updMat updRow
  rw [getD_set_self m t _ [] ht, getD_set_self _ r _ 0 hr]
  beta_reduce
  rw [Nat.add_sub_cancel, List.set_set, List.set_set, set_getD_self _ r 0 hr,
    set_getD_self m t [] ht]

end OS

namespace OS

theorem count_true_set_le (l : List Bool) (i : Nat) :
    l.count true ≤ (l.set i true).count true := by
  induction l generalizing i with
  | nil => simp
  | cons hd tl ih =>
      cases i with
      | zero => cases hd <;> simp [List.count_cons]
      | succ j => cases hd <;> simpa [List.count_cons] using ih j

theorem count_true_set_lt (l : List Bool) (i : Nat) (h : l.getD i true = false) :
    l.count true < (l.set i true).count true := by
  induction l generalizing i with
  | nil => simp [List.getD] at h
  | cons hd tl ih =>
      cases i with
      | zero =>
          have : hd = false := h
          subst this
          simp [List.count_cons]
      | succ j =>
          have := ih j h
          cases hd <;> simpa [List.count_cons] using this

theorem count_true_eq_length (l : List Bool) (h : l.count true = l.length) (i : Nat) :
    l.getD i true = true := by
  induction l generalizing i with
  | nil => cases i <;> rfl
  | cons hd tl ih =>
      have hle : tl.count true ≤ tl.length := List.count_le_length true tl
      cases hd with
      | false => simp [List.count_cons] at h; omega
      | true =>
          simp [List.count_cons] at h
          cases i with
          | zero => rfl
          | succ j => exact ih h j


end OS

namespace OS

theorem bankersPassAux_cons (need alloc : List (List Nat)) (ti : Nat) (rest : List Nat)
    (acc : List Bool × List Nat × Bool) :
    bankersPassAux need alloc (ti :: rest) acc =
      bankersPassAux need alloc rest (bankersStep need alloc acc ti) := rfl

theorem bankersStep_finished (need alloc : List (List Nat)) (acc : List Bool × List Nat × Bool)
    (ti : Nat) (h : acc.1.getD ti true = true) :
    bankersStep need alloc acc ti = acc := by
  unfold bankersStep
  rw [h]
  simp

theorem bankersStep_mark (need alloc : List (List Nat)) (acc : List Bool × List Nat × Bool)
    (ti : Nat) (h1 : acc.1.getD ti true = false)
    (h2 : rowLE (need.getD ti []) acc.2.1 = true) :
    bankersStep need alloc acc ti =
      (acc.1.set ti true, addRow acc.2.1 (alloc.getD ti []), true) := by
  unfold bankersStep
  rw [h1, h2]
  simp

theorem bankersStep_skip (need alloc : List (List Nat)) (acc : List Bool × List Nat × Bool)
    (ti : Nat) (h1 : acc.1.getD ti true = false)
    (h2 : rowLE (need.getD ti []) acc.2.1 = false) :
    bankersStep need alloc acc ti = acc := by
  unfold bankersStep
  rw [h1, h2]
  simp

theorem bankersPassAux_mono (need alloc : List (List Nat)) (l : List Nat) :
    ∀ acc : List Bool × List Nat × Bool,
      (bankersPassAux need alloc l acc).1.length = acc.1.length ∧
      acc.1.count true ≤ (bankersPassAux need alloc l acc).1.count true ∧
      ((bankersPassAux need alloc l acc).2.2 = true →
        acc.2.2 = true ∨ acc.1.count true < (bankersPassAux need alloc l acc).1.count true) := by
  induction l with
  | nil => exact fun acc => ⟨rfl, le_refl _, fun h => Or.inl h⟩
  | cons ti rest ih =>
      intro acc
      rw [bankersPassAux_cons]
      cases hti : acc.1.getD ti true with
      | true =>
          rw [bankersStep_finished need alloc acc ti hti]
          exact ih acc
      | false =>
          cases hle : rowLE (need.getD ti []) acc.2.1 with
          | false =>
              rw [bankersStep_skip need alloc acc ti hti hle]
              exact ih acc
          | true =>
              rw [bankersStep_mark need alloc acc ti hti hle]
              rcases ih (acc.1.set ti true, addRow acc.2.1 (alloc.getD ti []), true) with
                ⟨hlen, hcnt, _⟩
              refine ⟨by rw [hlen, List.length_set], ?_, ?_⟩
              · exact le_trans (count_true_set_le acc.1 ti) hcnt
              · intro _
                exact Or.inr (lt_of_lt_of_le (count_true_set_lt acc.1 ti hti) hcnt)

theorem bankersPassAux_all_finished (need alloc : List (List Nat)) (l : List Nat)
    (fin : List Bool) (wk : List Nat) (u : Bool)
    (h : ∀ i, fin.getD i true = true) :
    bankersPassAux need alloc l (fin, wk, u) = (fin, wk, u) := by
  induction l with
  | nil => rfl
  | cons ti rest ih =>
      rw [bankersPassAux_cons,
        bankersStep_finished need alloc (fin, wk, u) ti (h ti), ih]

theorem bankersLoop_succ (need alloc : List (List Nat)) (fuel : Nat)
    (fin : List Bool) (wk : List Nat) :
    bankersLoop need alloc (fuel + 1) fin wk =
      if (bankersPass need alloc fin wk).2.2
      then bankersLoop need alloc fuel (bankersPass need alloc fin wk).1
        (bankersPass need alloc fin wk).2.1
      else ((bankersPass need alloc fin wk).1, (bankersPass need alloc fin wk).2.1) := rfl

/-- Fuel adequacy of the Banker's loop: once the fuel exceeds the number
of still-unfinished tasks, adding fuel does not change the result — so
`bankersRun`, with fuel `need.length + 1` on an all-false `finished`,
computes exactly the fixpoint the Rust `loop { ... if updateable == false
{ break } }` reaches. -/
theorem bankersLoop_stable (need alloc : List (List Nat)) :
    ∀ (fuel : Nat) (fin : List Bool) (wk : List Nat),
      fin.length ≤ fuel + fin.count true →
      bankersLoop need alloc (fuel + 1) fin wk = bankersLoop need alloc fuel fin wk := by
  intro fuel
  induction fuel with
  | zero =>
      intro fin wk h
      have hcnt : fin.count true = fin.length :=
        le_antisymm (List.count_le_length true fin) (by omega)
      have hpass : bankersPass need alloc fin wk = (fin, wk, false) :=
        bankersPassAux_all_finished need alloc _ fin wk false (count_true_eq_length fin hcnt)
      rw [bankersLoop_succ, hpass]
      rfl
  | succ f ih =>
      intro fin wk h
      rcases bankersPassAux_mono need alloc (List.range need.length) (fin, wk, false) with
        ⟨hlen, _, hupd⟩
      cases hu : (bankersPass need alloc fin wk).2.2 with
      | false =>
          rw [bankersLoop_succ, hu, bankersLoop_succ need alloc f fin wk, hu]
          simp
      | true =>
          rw [bankersLoop_succ, hu, bankersLoop_succ need alloc f fin wk, hu]
          simp only [if_true]
          apply ih
          have hlt : fin.count true < (bankersPass need alloc fin wk).1.count true := by
            rcases hupd hu with hc | hc
            · exact (Bool.false_ne_true hc).elim
            · exact hc
          have hleq : (bankersPass need alloc fin wk).1.length = fin.length := hlen
          omega

end OS

namespace OS

/-- C2: with deadlock detection enabled, `sys_mutex_lock` and
`sys_semaphore_down` first increment `need[t][id]`, then run Banker's
(`bankersRun` starts from `work = available` and repeatedly marks
finished any unfinished thread whose whole `need` row fits under `work`,
adding its `allocated` row to `work`); the call returns -0xDEAD if and
only if the run leaves some thread unfinished, and in that case the
`need` increment is reverted and the whole accounting state is returned
unchanged (the call never reaches the blocking `lock()`/`down()`);
otherwise it returns 0. -/
theorem C2_deadlock_detection (st : SyncState) (t id : Nat)
    (ht : t < st.need.length) (hid : id < (st.need.getD t []).length) :
    ((sys_mutex_lock true st t id).1 = -0xDEAD ↔
        isDeadlocked st.available (updMat st.need t id (· + 1)) st.allocated = true)
    ∧ (isDeadlocked st.available (updMat st.need t id (· + 1)) st.allocated = true →
        (sys_mutex_lock true st t id).2 = st)
    ∧ ((sys_mutex_lock true st t id).1 = -0xDEAD ∨ (sys_mutex_lock true st t id).1 = 0)
    ∧ sys_semaphore_down true st t id = sys_mutex_lock true st t id := by
  have hcase :
      sys_mutex_lock true st t id =
        if isDeadlocked st.available (updMat st.need t id (· + 1)) st.allocated then
          (-0xDEAD, { st with need := updMat (updMat st.need t id (· + 1)) t id (· - 1) })
        else
          (0, { st with
                need := updMat (updMat st.need t id (· + 1)) t id (· - 1)
                available := updRow st.available id (· - 1)
                allocated := updMat st.allocated t id (· + 1) }) := by
    show blockingAcquire true st t id = _
    unfold blockingAcquire
    simp
  cases hdl : isDeadlocked st.available (updMat st.need t id (· + 1)) st.allocated with
  | true =>
      rw [hdl] at hcase
      simp only [if_true] at hcase
      refine ⟨⟨fun _ => rfl, fun _ => by rw [hcase]⟩, fun _ => ?_, ?_, rfl⟩
      · rw [hcase]
        show ({ st with need := updMat (updMat st.need t id (· + 1)) t id (· - 1) } :
          SyncState) = st
        rw [updMat_inc_dec st.need t id ht hid]
      · left
        rw [hcase]
  | false =>
      rw [hdl] at hcase
      rw [if_neg (by simp : ¬(false = true))] at hcase
      refine ⟨⟨fun hc => ?_, fun hc => (Bool.false_ne_true hc).elim⟩,
        fun hc => (Bool.false_ne_true hc).elim, ?_, rfl⟩
      · rw [hcase] at hc
        exact absurd hc (by norm_num)
      · right
        rw [hcase]

/-- Witness for C2: two threads, two mutexes, each thread holding one
mutex and the second thread requesting the other — the Banker's run
leaves both unfinished, the call fails with -0xDEAD and the state is
returned untouched. -/
theorem C2_deadlock_detection_witness :
    (sys_mutex_lock true ⟨[true, true], [0, 0], [[0, 1], [0, 0]], [[1, 0], [0, 1]]⟩ 1 0).1
        = -0xDEAD
      ∧ (sys_mutex_lock true ⟨[true, true], [0, 0], [[0, 1], [0, 0]], [[1, 0], [0, 1]]⟩ 1 0).2
        = ⟨[true, true], [0, 0], [[0, 1], [0, 0]], [[1, 0], [0, 1]]⟩ := by
  have h := C2_deadlock_detection ⟨[true, true], [0, 0], [[0, 1], [0, 0]], [[1, 0], [0, 1]]⟩
    1 0 (by decide) (by decide)
  exact ⟨h.1.mpr (by decide), h.2.1 (by decide)⟩

end OS

namespace OS

/-- Sum over all threads t of `m[t][r]` (out-of-range rows contribute 0,
matching the dense-matrix invariant of the PCB). -/
def sumCol (m : List (List Nat)) (r : Nat) : Nat :=
  (m.map fun row => row.getD r 0).sum

/-- The quantity of claim C3 for column r: total allocation plus what is
still available. -/
def invVal (alloc : List (List Nat)) (avail : List Nat) (r : Nat) : Nat :=
  sumCol alloc r + avail.getD r 0

theorem sumCol_set (m : List (List Nat)) (t : Nat) (row' : List Nat) (r : Nat)
    (ht : t < m.length) :
    sumCol (m.set t row') r + (m.getD t []).getD r 0 = sumCol m r + row'.getD r 0 := by
  induction m generalizing t with
  | nil => simp at ht
  | cons hd tl ih =>
      cases t with
      | zero =>
          simp only [List.set, sumCol, List.map, List.sum_cons, List.getD_cons_zero]
          omega
      | succ t' =>
          have := ih t' (by simpa using ht)
          simp only [List.set, sumCol, List.map, List.sum_cons, List.getD_cons_succ] at this ⊢
          omega

theorem getD_le_sumCol (m : List (List Nat)) (t r : Nat) (ht : t < m.length) :
    (m.getD t []).getD r 0 ≤ sumCol m r := by
  induction m generalizing t with
  | nil => simp at ht
  | cons hd tl ih =>
      cases t with
      | zero =>
          simp only [sumCol, List.map, List.sum_cons, List.getD_cons_zero]
          omega
      | succ t' =>
          have := ih t' (by simpa using ht)
          simp only [sumCol, List.map, List.sum_cons, List.getD_cons_succ] at this ⊢
          omega

theorem getD_set_zero (l : List Nat) (i : Nat) : (l.set i 0).getD i 0 = 0 := by
  induction l generalizing i with
  | nil => cases i <;> rfl
  | cons hd tl ih =>
      cases i with
      | zero => rfl
      | succ j => exact ih j

theorem sumCol_map_set_zero (m : List (List Nat)) (i : Nat) :
    sumCol (m.map fun row => row.set i 0) i = 0 := by
  induction m with
  | nil => rfl
  | cons hd tl ih =>
      simp only [sumCol, List.map, List.sum_cons] at ih ⊢
      rw [getD_set_zero hd i, ih]

theorem sumCol_map_set_ne (m : List (List Nat)) (i r : Nat) (h : i ≠ r) :
    sumCol (m.map fun row => row.set i 0) r = sumCol m r := by
  induction m with
  | nil => rfl
  | cons hd tl ih =>
      simp only [sumCol, List.map, List.sum_cons] at ih ⊢
      rw [getD_set_ne hd i r 0 0 h, ih]

theorem getD_append_self {α : Type} (l : List α) (c d : α) :
    (l ++ [c]).getD l.length d = c := by
  induction l with
  | nil => rfl
  | cons hd tl ih => exact ih

theorem getD_append_ne {α : Type} (l : List α) (c d : α) (r : Nat) (h : r ≠ l.length) :
    (l ++ [c]).getD r d = l.getD r d := by
  induction l generalizing r with
  | nil =>
      cases r with
      | zero => exact absurd rfl h
      | succ r' => cases r' <;> rfl
  | cons hd tl ih =>
      cases r with
      | zero => rfl
      | succ r' => exact ih r' fun hc => h (by simp [hc])

theorem sumCol_map_append_zero_self (m : List (List Nat)) (L : Nat)
    (hrect : ∀ row ∈ m, row.length = L) :
    sumCol (m.map fun row => row ++ [0]) L = 0 := by
  induction m with
  | nil => rfl
  | cons hd tl ih =>
      have hhd : hd.length = L := hrect hd (List.mem_cons_self hd tl)
      have htl := ih fun row hr => hrect row (List.mem_cons_of_mem hd hr)
      simp only [sumCol, List.map, List.sum_cons] at htl ⊢
      rw [htl, ← hhd, getD_append_self hd 0 0]

theorem sumCol_map_append_zero_ne (m : List (List Nat)) (L r : Nat)
    (hrect : ∀ row ∈ m, row.length = L) (h : r ≠ L) :
    sumCol (m.map fun row => row ++ [0]) r = sumCol m r := by
  induction m with
  | nil => rfl
  | cons hd tl ih =>
      have hhd : hd.length = L := hrect hd (List.mem_cons_self hd tl)
      have htl := ih fun row hr => hrect row (List.mem_cons_of_mem hd hr)
      simp only [sumCol, List.map, List.sum_cons] at htl ⊢
      rw [htl, getD_append_ne hd 0 0 r (by rw [hhd]; exact h)]

theorem findFreeSlot_lt (l : List Bool) :
    ∀ (k i : Nat), findFreeSlot l k = some i → k ≤ i ∧ i < k + l.length := by
  induction l with
  | nil => intro k i h; exact absurd h (by simp [findFreeSlot])
  | cons hd tl ih =>
      intro k i h
      cases hhd : hd with
      | false =>
          rw [findFreeSlot, hhd] at h
          simp at h
          simp only [List.length_cons]
          omega
      | true =>
          rw [findFreeSlot, hhd] at h
          simp at h
          rcases ih (k + 1) i h with ⟨h1, h2⟩
          constructor <;> [omega; (simp only [List.length_cons]; omega)]

end OS

namespace OS

theorem blockingAcquire_cases (d : Bool) (st : SyncState) (t id : Nat) :
    blockingAcquire d st t id =
      if d && isDeadlocked st.available (updMat st.need t id (· + 1)) st.allocated then
        (-0xDEAD, { st with need := updMat (updMat st.need t id (· + 1)) t id (· - 1) })
      else
        (0, { st with
              need := updMat (updMat st.need t id (· + 1)) t id (· - 1)
              available := updRow st.available id (· - 1)
              allocated := updMat st.allocated t id (· + 1) }) := by
  unfold blockingAcquire
  simp

/-- C3: the six sync syscalls preserve, for every primitive id `r`, the
quantity `(sum over threads of allocated[t][r]) + available[r]`; the two
create calls set it to the creation capacity at the id they return (1
for a mutex, `res_count` for a semaphore) and preserve it at every other
id.  The `1 ≤ …` hypotheses say the acquire/release accounting does not
underflow its usize cells, which the blocking protocol guarantees. -/
theorem C3_capacity_preserved (st : SyncState) (t id cap : Nat) (blocking detect : Bool)
    (hsl : st.slots.length = st.available.length)
    (hrectA : ∀ row ∈ st.allocated, row.length = st.available.length)
    (ht : t < st.need.length) (hid : id < (st.need.getD t []).length)
    (htA : t < st.allocated.length) (hidA : id < (st.allocated.getD t []).length)
    (hidAv : id < st.available.length)
    (hav : 1 ≤ st.available.getD id 0)
    (hal : 1 ≤ (st.allocated.getD t []).getD id 0) :
    (∀ r, r ≠ (sys_mutex_create st blocking).1 →
        invVal (sys_mutex_create st blocking).2.allocated
          (sys_mutex_create st blocking).2.available r =
          invVal st.allocated st.available r)
    ∧ invVal (sys_mutex_create st blocking).2.allocated
        (sys_mutex_create st blocking).2.available (sys_mutex_create st blocking).1 = 1
    ∧ (∀ r, r ≠ (sys_semaphore_create st cap).1 →
        invVal (sys_semaphore_create st cap).2.allocated
          (sys_semaphore_create st cap).2.available r =
          invVal st.allocated st.available r)
    ∧ invVal (sys_semaphore_create st cap).2.allocated
        (sys_semaphore_create st cap).2.available (sys_semaphore_create st cap).1 = cap
    ∧ (∀ r, invVal (sys_mutex_lock detect st t id).2.allocated
        (sys_mutex_lock detect st t id).2.available r = invVal st.allocated st.available r)
    ∧ (∀ r, invVal (sys_mutex_unlock st t id).2.allocated
        (sys_mutex_unlock st t id).2.available r = invVal st.allocated st.available r)
    ∧ (∀ r, invVal (sys_semaphore_down detect st t id).2.allocated
        (sys_semaphore_down detect st t id).2.available r = invVal st.allocated st.available r)
    ∧ (∀ r, invVal (sys_semaphore_up st t id).2.allocated
        (sys_semaphore_up st t id).2.available r = invVal st.allocated st.available r) := by
  have hcreate : ∀ c : Nat,
      (∀ r, r ≠ (sync_create st c).1 →
        invVal (sync_create st c).2.allocated (sync_create st c).2.available r =
          invVal st.allocated st.available r)
      ∧ invVal (sync_create st c).2.allocated (sync_create st c).2.available
          (sync_create st c).1 = c := by
    intro c
    cases hslot : findFreeSlot st.slots 0 with
    | some i =>
        have hi : i < st.available.length := by
          rcases findFreeSlot_lt st.slots 0 i hslot with ⟨_, h2⟩
          omega
        have hc : sync_create st c =
            (i, { slots := st.slots.set i true
                  available := st.available.set i c
                  need := st.need.map fun row => row.set i 0
                  allocated := st.allocated.map fun row => row.set i 0 }) := by
          unfold sync_create
          rw [hslot]
        rw [hc]
        constructor
        · intro r hr
          show sumCol (st.allocated.map fun row => row.set i 0) r +
              (st.available.set i c).getD r 0 = _
          rw [sumCol_map_set_ne st.allocated i r fun hir => hr (hir ▸ rfl),
            getD_set_ne st.available i r c 0 fun hir => hr (hir ▸ rfl)]
          rfl
        · show sumCol (st.allocated.map fun row => row.set i 0) i +
              (st.available.set i c).getD i 0 = c
          rw [sumCol_map_set_zero, getD_set_self st.available i c 0 hi]
          exact Nat.zero_add c
    | none =>
        have hc : sync_create st c =
            (st.slots.length,
             { slots := st.slots ++ [true]
               available := st.available ++ [c]
               need := st.need.map fun row => row ++ [0]
               allocated := st.allocated.map fun row => row ++ [0] }) := by
          unfold sync_create
          rw [hslot]
        rw [hc]
        constructor
        · intro r hr
          show sumCol (st.allocated.map fun row => row ++ [0]) r +
              (st.available ++ [c]).getD r 0 = _
          rw [sumCol_map_append_zero_ne st.allocated st.available.length r hrectA
              (fun h => hr (by rw [h, hsl])),
            getD_append_ne st.available c 0 r fun h => hr (by rw [h, hsl])]
          rfl
        · show sumCol (st.allocated.map fun row => row ++ [0]) st.slots.length +
              (st.available ++ [c]).getD st.slots.length 0 = c
          rw [hsl, sumCol_map_append_zero_self st.allocated st.available.length hrectA,
            getD_append_self st.available c 0]
          exact Nat.zero_add c
  have hacq : ∀ d : Bool, ∀ r,
      invVal (blockingAcquire d st t id).2.allocated
        (blockingAcquire d st t id).2.available r = invVal st.allocated st.available r := by
    intro d r
    rw [blockingAcquire_cases]
    cases hdl : (d && isDeadlocked st.available (updMat st.need t id (· + 1)) st.allocated) with
    | true =>
        rw [if_pos rfl]
    | false =>
        rw [if_neg (by simp : ¬(false = true))]
        show sumCol (updMat st.allocated t id (· + 1)) r +
            (updRow st.available id (· - 1)).getD r 0 = _
        by_cases hr : r = id
        · rw [hr]
          have hs := sumCol_set st.allocated t (updRow (st.allocated.getD t []) id (· + 1))
            id htA
          have hrow : (updRow (st.allocated.getD t []) id (· + 1)).getD id 0 =
              (st.allocated.getD t []).getD id 0 + 1 :=
            getD_set_self (st.allocated.getD t []) id _ 0 hidA
          have havail : (updRow st.available id (· - 1)).getD id 0 =
              st.available.getD id 0 - 1 :=
            getD_set_self st.available id _ 0 hidAv
          rw [hrow] at hs
          unfold updMat
          unfold invVal
          rw [havail]
          omega
        · have hs := sumCol_set st.allocated t (updRow (st.allocated.getD t []) id (· + 1))
            r htA
          have hrow : (updRow (st.allocated.getD t []) id (· + 1)).getD r 0 =
              (st.allocated.getD t []).getD r 0 :=
            getD_set_ne (st.allocated.getD t []) id r _ 0 fun h => hr (h ▸ rfl)
          have havail : (updRow st.available id (· - 1)).getD r 0 =
              st.available.getD r 0 :=
            getD_set_ne st.available id r _ 0 fun h => hr (h ▸ rfl)
          rw [hrow] at hs
          unfold updMat
          unfold invVal
          rw [havail]
          omega
  have hrel : ∀ r,
      invVal (releaseOne st t id).2.allocated (releaseOne st t id).2.available r =
        invVal st.allocated st.available r := by
    intro r
    show sumCol (updMat st.allocated t id (· - 1)) r +
        (updRow st.available id (· + 1)).getD r 0 = _
    by_cases hr : r = id
    · rw [hr]
      have hs := sumCol_set st.allocated t (updRow (st.allocated.getD t []) id (· - 1))
        id htA
      have hrow : (updRow (st.allocated.getD t []) id (· - 1)).getD id 0 =
          (st.allocated.getD t []).getD id 0 - 1 :=
        getD_set_self (st.allocated.getD t []) id _ 0 hidA
      have havail : (updRow st.available id (· + 1)).getD id 0 =
          st.available.getD id 0 + 1 :=
        getD_set_self st.available id _ 0 hidAv
      have hle := getD_le_sumCol st.allocated t id htA
      rw [hrow] at hs
      unfold updMat
      unfold invVal
      rw [havail]
      omega
    · have hs := sumCol_set st.allocated t (updRow (st.allocated.getD t []) id (· - 1))
        r htA
      have hrow : (updRow (st.allocated.getD t []) id (· - 1)).getD r 0 =
          (st.allocated.getD t []).getD r 0 :=
        getD_set_ne (st.allocated.getD t []) id r _ 0 fun h => hr (h ▸ rfl)
      have havail : (updRow st.available id (· + 1)).getD r 0 =
          st.available.getD r 0 :=
        getD_set_ne st.available id r _ 0 fun h => hr (h ▸ rfl)
      rw [hrow] at hs
      unfold updMat
      unfold invVal
      rw [havail]
      omega
  exact ⟨(hcreate 1).1, (hcreate 1).2, (hcreate cap).1, (hcreate cap).2,
    hacq detect, hrel, hacq detect, hrel⟩

/-- Witness for C3 at a one-thread, one-mutex state where the thread
holds the mutex: creation capacity, lock and unlock preservation. -/
theorem C3_capacity_preserved_witness :
    invVal (sys_mutex_lock true ⟨[true], [1], [[0]], [[1]]⟩ 0 0).2.allocated
        (sys_mutex_lock true ⟨[true], [1], [[0]], [[1]]⟩ 0 0).2.available 0 =
      invVal ([[1]] : List (List Nat)) [1] 0
    ∧ invVal (sys_semaphore_create ⟨[true], [1], [[0]], [[1]]⟩ 5).2.allocated
        (sys_semaphore_create ⟨[true], [1], [[0]], [[1]]⟩ 5).2.available
        (sys_semaphore_create ⟨[true], [1], [[0]], [[1]]⟩ 5).1 = 5 := by
  have h := C3_capacity_preserved ⟨[true], [1], [[0]], [[1]]⟩ 0 0 5 true true
    (by decide) (by decide) (by decide) (by decide) (by decide) (by decide)
    (by decide) (by decide) (by decide)
  exact ⟨h.2.2.2.2.1 0, h.2.2.2.1⟩

end OS

namespace OS

/-! ### Virtual-memory model for `sys_mmap` / `sys_munmap`

The `mm` module of the repository is not among the sources, so page
size, `VirtAddr` rounding and the `MemorySet` operations the two
syscalls (src/os/src/syscall/process.rs lines 249-325) call into are
modelled from the specification; the syscall bodies themselves are
translated from the source. -/

/-- Modelled from the spec: the page size of the missing `mm` module. -/
def PAGE_SIZE : Nat := 4096

/-- Modelled from the spec: `VirtAddr::floor`, the virtual page number
containing the address (`mm/address.rs` is absent). -/
def vaFloor (a : Nat) : Nat := a / PAGE_SIZE

/-- Modelled from the spec: `VirtAddr::ceil`, the first virtual page
number at or above the address. -/
def vaCeil (a : Nat) : Nat := (a + PAGE_SIZE - 1) / PAGE_SIZE

/-- Modelled from the spec: `VirtAddr::aligned`. -/
def vaAligned (a : Nat) : Bool := a % PAGE_SIZE == 0

/-- Modelled from the spec: `MapPermission`, the R/W/X/U PTE permission
bits of the missing `mm` module. -/
structure MapPermission where
  r : Bool
  w : Bool
  x : Bool
  u : Bool
deriving DecidableEq

/-- Modelled from the spec: a `MapArea` owns a VPN range and permission
bits (the Framed frame map is not needed by the claims). -/
structure MapArea where
  startVpn : Nat
  endVpn : Nat
  perm : MapPermission
deriving DecidableEq

/-- Modelled from the spec: a `MemorySet` as its vector of `MapArea`s. -/
abbrev MemorySet := List MapArea

def areaContains (a : MapArea) (vpn : Nat) : Bool :=
  decide (a.startVpn ≤ vpn) && decide (vpn < a.endVpn)

/-- Modelled from the spec: `memory_set.translate(vpn)` yields a valid
PTE exactly on the pages covered by some pushed area; elsewhere the walk
yields nothing valid (the syscalls treat a missing and an invalid PTE
alike). -/
def translateValid (ms : MemorySet) (vpn : Nat) : Bool :=
  ms.any fun a => areaContains a vpn

/-- Modelled from the spec: `insert_framed_area` maps the VPN range with
the given permissions (the conflict check is the callers' duty here —
both call sites pre-check). -/
def insert_framed_area (ms : MemorySet) (s e : Nat) (p : MapPermission) : MemorySet :=
  ms ++ [⟨s, e, p⟩]

/-- Modelled from the spec: `remove_area_with_start_vpn(vpn)` drops the
single area beginning at `vpn` and does nothing when no area starts
there. -/
def remove_area_with_start_vpn : MemorySet → Nat → MemorySet
  | [], _ => []
  | a :: rest, vpn =>
      if a.startVpn == vpn then rest else a :: remove_area_with_start_vpn rest vpn

/-- `!0x7usize`: the usize complement of 7. -/
def usizeNot7 : Nat := 2 ^ 64 - 8

/-- The permission built by `sys_mmap`: `U` plus R/W/X as requested by
the low three port bits. -/
def permFromPort (port : Nat) : MapPermission :=
  ⟨port &&& 1 != 0, port &&& 2 != 0, port &&& 4 != 0, true⟩

/-- The page-check loop of `sys_mmap`: `current` runs from `start` in
`PAGE_SIZE` steps while `current < start + len`, so iteration `k`
inspects `floor(start + PAGE_SIZE * k)` and there are `ceil(len /
PAGE_SIZE)` iterations; any valid PTE aborts the call. -/
def mmapPagesMapped (ms : MemorySet) (start len : Nat) : Bool :=
  (List.range (vaCeil len)).any fun k => translateValid ms (vaFloor (start + PAGE_SIZE * k))

/-- `sys_mmap` (src/os/src/syscall/process.rs lines 249-289). -/
def sys_mmap (ms : MemorySet) (start len port : Nat) : Int × MemorySet :=
  if vaAligned start && (port &&& usizeNot7 == 0) && (port &&& 7 != 0) then
    if mmapPagesMapped ms start len then (-1, ms)
    else (0, insert_framed_area ms (vaFloor start) (vaCeil (start + len)) (permFromPort port))
  else (-1, ms)

/-- The page-check loop of `sys_munmap`: `current` runs from `start` in
`PAGE_SIZE` steps while `floor(current) < ceil(start + len)`; a missing
or invalid PTE aborts the call with -1. -/
def munmapRangeInvalid (ms : MemorySet) (start len : Nat) : Bool :=
  (List.range (vaCeil (start + len) - vaFloor start)).any fun k =>
    !translateValid ms (vaFloor (start + PAGE_SIZE * k))

/-- `sys_munmap` (src/os/src/syscall/process.rs lines 293-325). -/
def sys_munmap (ms : MemorySet) (start len : Nat) : Int × MemorySet :=
  if vaAligned start then
    if munmapRangeInvalid ms start len then (-1, ms)
    else (0, remove_area_with_start_vpn ms (vaFloor start))
  else (-1, ms)

end OS

namespace OS

theorem mask_testBit (i : Nat) :
    usizeNot7.testBit i = (decide (3 ≤ i) && decide (i < 64)) := by
  have h8 : usizeNot7 = (2 ^ 61 - 1) <<< 3 := by
    norm_num [usizeNot7, Nat.shiftLeft_eq]
  rw [h8, Nat.testBit_shiftLeft, Nat.testBit_two_pow_sub_one]
  by_cases h3 : 3 ≤ i
  · have h2 : (i - 3 < 61) ↔ (i < 64) := by omega
    simp [h3, h2]
  · simp [h3]

theorem land_usizeNot7_eq_zero_iff (port : Nat) (h : port < 2 ^ 64) :
    (port &&& usizeNot7 = 0) ↔ port < 8 := by
  constructor
  · intro h0
    have hbits : ∀ i, 3 ≤ i → port.testBit i = false := by
      intro i hi
      by_cases h64 : i < 64
      · have hb := congrArg (fun n => n.testBit i) h0
        simp only [Nat.testBit_land, Nat.zero_testBit] at hb
        rw [mask_testBit i] at hb
        simpa [hi, h64] using hb
      · exact Nat.testBit_eq_false_of_lt
          (lt_of_lt_of_le h (Nat.pow_le_pow_right (by norm_num) (by omega)))
    have heq : port = port % 8 := by
      apply Nat.eq_of_testBit_eq
      intro i
      have hand : port % 8 = port &&& 7 := by
        have := Nat.and_pow_two_sub_one_eq_mod port 3
        norm_num at this
        omega
      rw [hand, Nat.testBit_land]
      have h7 : (7 : Nat).testBit i = decide (i < 3) := by
        have h73 : (7 : Nat) = 2 ^ 3 - 1 := by norm_num
        rw [h73, Nat.testBit_two_pow_sub_one]
      rw [h7]
      by_cases hi : i < 3
      · simp [hi]
      · simp [hi, hbits i (by omega)]
    have := Nat.mod_lt port (show 0 < 8 by norm_num)
    omega
  · intro h8
    apply Nat.eq_of_testBit_eq
    intro i
    rw [Nat.testBit_land, Nat.zero_testBit, mask_testBit i]
    by_cases hi : 3 ≤ i
    · have hport : port.testBit i = false :=
        Nat.testBit_eq_false_of_lt
          (lt_of_lt_of_le h8 (le_trans (by norm_num : (8:Nat) ≤ 2 ^ 3)
            (Nat.pow_le_pow_right (by norm_num) hi)))
      simp [hport]
    · simp [hi]

theorem land7_eq_self (port : Nat) (h : port < 8) : port &&& 7 = port := by
  have := Nat.and_pow_two_sub_one_eq_mod port 3
  have hm : port % 2 ^ 3 = port := Nat.mod_eq_of_lt (by norm_num; omega)
  norm_num at this
  omega

theorem land_two_pow_testBit (port i : Nat) :
    (port &&& 2 ^ i != 0) = port.testBit i := by
  rw [Nat.and_two_pow]
  cases hb : port.testBit i with
  | false => simp
  | true =>
      have hne : (2 : Nat) ^ i ≠ 0 := Nat.pos_iff_ne_zero.mp (Nat.pos_pow_of_pos i (by norm_num))
      simp [hne]

end OS

namespace OS

theorem vaFloor_add_mul (start k : Nat) :
    vaFloor (start + PAGE_SIZE * k) = vaFloor start + k := by
  simp only [vaFloor, PAGE_SIZE]
  omega

theorem vaAligned_mod (start : Nat) (h : vaAligned start = true) : start % 4096 = 0 := by
  simpa [vaAligned, PAGE_SIZE] using h

theorem aligned_vaCeil (start len : Nat) (h : vaAligned start = true) :
    vaCeil (start + len) = vaFloor start + vaCeil len := by
  have hm := vaAligned_mod start h
  simp only [vaCeil, vaFloor, PAGE_SIZE]
  omega

theorem vaFloor_le_vaCeil (start len : Nat) : vaFloor start ≤ vaCeil (start + len) := by
  simp only [vaCeil, vaFloor, PAGE_SIZE]
  omega

theorem mmapPagesMapped_eq_false_iff (ms : MemorySet) (start len : Nat)
    (hal : vaAligned start = true) :
    mmapPagesMapped ms start len = false ↔
      ∀ p, vaFloor start ≤ p → p < vaCeil (start + len) → translateValid ms p = false := by
  have hceil := aligned_vaCeil start len hal
  unfold mmapPagesMapped
  rw [List.any_eq_false]
  constructor
  · intro hall p h1 h2
    have hk : p - vaFloor start < vaCeil len := by omega
    have := hall (p - vaFloor start) (List.mem_range.mpr hk)
    rw [vaFloor_add_mul, show vaFloor start + (p - vaFloor start) = p from by omega] at this
    simpa using this
  · intro hall k hkmem
    have hk := List.mem_range.mp hkmem
    rw [vaFloor_add_mul]
    simp [hall (vaFloor start + k) (by omega) (by omega)]

theorem munmapRangeInvalid_eq_false_iff (ms : MemorySet) (start len : Nat) :
    munmapRangeInvalid ms start len = false ↔
      ∀ p, vaFloor start ≤ p → p < vaCeil (start + len) → translateValid ms p = true := by
  have hle := vaFloor_le_vaCeil start len
  unfold munmapRangeInvalid
  rw [List.any_eq_false]
  constructor
  · intro hall p h1 h2
    have hk : p - vaFloor start < vaCeil (start + len) - vaFloor start := by omega
    have := hall (p - vaFloor start) (List.mem_range.mpr hk)
    rw [vaFloor_add_mul, show vaFloor start + (p - vaFloor start) = p from by omega] at this
    simpa using this
  · intro hall k hkmem
    have hk := List.mem_range.mp hkmem
    rw [vaFloor_add_mul]
    simp [hall (vaFloor start + k) (by omega) (by omega)]

theorem permFromPort_testBit (port : Nat) :
    permFromPort port = ⟨port.testBit 0, port.testBit 1, port.testBit 2, true⟩ := by
  unfold permFromPort
  rw [show (port &&& 1 != 0) = port.testBit 0 from land_two_pow_testBit port 0,
    show (port &&& 2 != 0) = port.testBit 1 from land_two_pow_testBit port 1,
    show (port &&& 4 != 0) = port.testBit 2 from land_two_pow_testBit port 2]

theorem mmap_guard_true (start port : Nat) (hport : port < 2 ^ 64)
    (hal : vaAligned start = true) (h0 : 0 < port) (h8 : port < 8) :
    (vaAligned start && (port &&& usizeNot7 == 0) && (port &&& 7 != 0)) = true := by
  have h1 : port &&& usizeNot7 = 0 := (land_usizeNot7_eq_zero_iff port hport).mpr h8
  have h2 : port &&& 7 = port := land7_eq_self port h8
  rw [hal, h1, h2]
  simp
  omega

/-- C4: `sys_mmap(start, len, port)` returns 0 and appends a framed area
covering pages `floor start` up to `ceil (start+len)` whose permission
is U plus the requested subset of R/W/X, exactly when `start` is
page-aligned, `port` has no bits outside 0..=7, `port` is nonzero, and
no page of `[start, start+len)` has a valid PTE; in every other case it
returns -1 with the memory set untouched. -/
theorem C4_mmap_spec (ms : MemorySet) (start len port : Nat) (hport : port < 2 ^ 64) :
    ((vaAligned start = true ∧ 0 < port ∧ port < 8 ∧
        ∀ p, vaFloor start ≤ p → p < vaCeil (start + len) → translateValid ms p = false) →
      sys_mmap ms start len port =
        (0, ms ++ [⟨vaFloor start, vaCeil (start + len),
            ⟨port.testBit 0, port.testBit 1, port.testBit 2, true⟩⟩]))
    ∧ (¬(vaAligned start = true ∧ 0 < port ∧ port < 8 ∧
        ∀ p, vaFloor start ≤ p → p < vaCeil (start + len) → translateValid ms p = false) →
      sys_mmap ms start len port = (-1, ms)) := by
  constructor
  · rintro ⟨hal, h0, h8, hfree⟩
    have hguard := mmap_guard_true start port hport hal h0 h8
    have hnm : mmapPagesMapped ms start len = false :=
      (mmapPagesMapped_eq_false_iff ms start len hal).mpr hfree
    unfold sys_mmap
    rw [hguard, if_pos rfl, hnm, if_neg (by simp : ¬(false = true))]
    rw [show insert_framed_area ms (vaFloor start) (vaCeil (start + len)) (permFromPort port)
        = ms ++ [⟨vaFloor start, vaCeil (start + len), permFromPort port⟩] from rfl]
    rw [permFromPort_testBit]
  · intro hnot
    by_cases hal : vaAligned start = true
    · by_cases h8 : port < 8
      · by_cases h0 : 0 < port
        · have hfreefail : ¬(∀ p, vaFloor start ≤ p → p < vaCeil (start + len) →
              translateValid ms p = false) := fun hf => hnot ⟨hal, h0, h8, hf⟩
          have hm : mmapPagesMapped ms start len = true := by
            cases hmm : mmapPagesMapped ms start len with
            | true => rfl
            | false =>
                exact absurd ((mmapPagesMapped_eq_false_iff ms start len hal).mp hmm) hfreefail
          have hguard := mmap_guard_true start port hport hal h0 h8
          unfold sys_mmap
          rw [hguard, if_pos rfl, hm, if_pos rfl]
        · have hz : port = 0 := by omega
          subst hz
          unfold sys_mmap
          rw [show (0 : Nat) &&& 7 = 0 from land7_eq_self 0 (by norm_num)]
          simp
      · have hz : port &&& usizeNot7 ≠ 0 :=
          fun hz => h8 ((land_usizeNot7_eq_zero_iff port hport).mp hz)
        unfold sys_mmap
        simp [hz]
    · have hfalse : vaAligned start = false := by
        cases hv : vaAligned start with
        | true => exact absurd hv hal
        | false => rfl
      unfold sys_mmap
      rw [hfalse]
      simp

/-- Witness for C4: an empty memory set, `start = 4096`, `len = 8192`,
`port = 3` satisfies the success condition and the call appends the
2-page R+W+U area. -/
theorem C4_mmap_spec_witness :
    sys_mmap [] 4096 8192 3 = (0, [⟨1, 3, ⟨true, true, false, true⟩⟩]) := by
  have h := (C4_mmap_spec [] 4096 8192 3 (by norm_num)).1
    ⟨by decide, by norm_num, by norm_num, fun p _ _ => by simp [translateValid]⟩
  simpa using h

end OS

namespace OS

/-- C5 (amended): `sys_munmap` returns -1 and unmaps nothing unless
`start` is page-aligned and every page of `[start, start+len)`
translates to a valid PTE; whenever the whole range is valid — also when
it is a strict sub-range of a mapped area — it returns 0 and removes the
single area whose start vpn is `floor start` (the entire area, or
nothing when no area starts there): partial unmapping is not rejected. -/
theorem C5_munmap_amended (ms : MemorySet) (start len : Nat) :
    (vaAligned start = false → sys_munmap ms start len = (-1, ms))
    ∧ ((∃ p, vaFloor start ≤ p ∧ p < vaCeil (start + len) ∧ translateValid ms p = false) →
        sys_munmap ms start len = (-1, ms))
    ∧ (vaAligned start = true →
        (∀ p, vaFloor start ≤ p → p < vaCeil (start + len) → translateValid ms p = true) →
        sys_munmap ms start len = (0, remove_area_with_start_vpn ms (vaFloor start))) := by
  refine ⟨?_, ?_, ?_⟩
  · intro hal
    unfold sys_munmap
    rw [hal]
    simp
  · rintro ⟨p, h1, h2, h3⟩
    cases hal : vaAligned start with
    | false =>
        unfold sys_munmap
        rw [hal]
        simp
    | true =>
        have hinv : munmapRangeInvalid ms start len = true := by
          cases hmm : munmapRangeInvalid ms start len with
          | true => rfl
          | false =>
              have := (munmapRangeInvalid_eq_false_iff ms start len).mp hmm p h1 h2
              rw [this] at h3
              exact absurd h3 (by simp)
        unfold sys_munmap
        rw [hal, if_pos rfl, hinv, if_pos rfl]
  · intro hal hvalid
    have hinv : munmapRangeInvalid ms start len = false :=
      (munmapRangeInvalid_eq_false_iff ms start len).mpr hvalid
    unfold sys_munmap
    rw [hal, if_pos rfl, hinv, if_neg (by simp : ¬(false = true))]

/-- Counterexample to C5 as stated: the area covers pages [16, 18) but
`sys_munmap` of its first page only — a strict sub-range — returns 0
(not an error) and removes the whole area.  Page 17 is mapped yet lies
outside the unmapped range `[65536, 65536 + 4096)`, whose pages are
`[16, 17)`. -/
theorem C5_munmap_partial_counterexample :
    sys_munmap [⟨16, 18, ⟨true, true, false, true⟩⟩] 65536 4096 = (0, [])
      ∧ translateValid [⟨16, 18, ⟨true, true, false, true⟩⟩] 17 = true
      ∧ vaCeil (65536 + 4096) = 17 := by
  decide

/-- Witness for the amended C5: a fully covered one-page range is
removed with return value 0. -/
theorem C5_munmap_amended_witness :
    sys_munmap [⟨1, 2, ⟨true, true, false, true⟩⟩] 4096 4096 = (0, []) := by
  have h := (C5_munmap_amended [⟨1, 2, ⟨true, true, false, true⟩⟩] 4096 4096).2.2
    (by decide)
    (fun p h1 h2 => by
      have hp : p = 1 := by
        simp only [vaFloor, vaCeil, PAGE_SIZE] at h1 h2
        omega
      subst hp
      decide)
  simpa using h

end OS

namespace EFS

/-! ### easy-fs inode/directory model (src/easy-fs/src/vfs.rs)

`vfs.rs` is among the sources and its `insert_link_entry` /
`remove_link_entry` are translated below.  The disk layout it drives
(`DiskInode`, `DirEntry`, the data bitmap of `EasyFileSystem`) is not,
so those parts are modelled from the specification: a directory's
content is an array of 32-byte entries `{name: [u8;27]+NUL, inode_id}`,
`size` is a multiple of 32, and the allocated data blocks exactly cover
`ceil(size/512)`; `alloc_data` hands out the lowest clear bit of the
data bitmap and `dealloc_data` clears it. -/

/-- Modelled from the spec: a `DirEntry` of the missing `layout.rs`, its
name as the NUL-terminated byte list. -/
structure DirEntry where
  name : List Nat
  inodeId : Nat
deriving DecidableEq

/-- Modelled from the spec: a directory `DiskInode` of the missing
`layout.rs` — its entries (size = 32 * count) and the ids of its
allocated data blocks in allocation order. -/
structure DirInode where
  entries : List DirEntry
  blocks : List Nat
deriving DecidableEq

/-- Modelled from the spec: the `EasyFileSystem` state the two link
operations touch — data bitmap and the root directory inode (`efs.rs` is
absent). -/
structure EFSState where
  bitmap : List Bool
  root : DirInode
deriving DecidableEq

/-- Modelled from the spec: `DiskInode::total_blocks`-style count of
data blocks holding `size` content bytes, `ceil(size/512)`. -/
def totalBlocksFor (size : Nat) : Nat := (size + 511) / 512

/-- Modelled from the spec: `DiskInode::blocks_num_needed(new_size)` for
a file of `old` bytes (`layout.rs` is absent). -/
def blocks_num_needed (old new : Nat) : Nat := totalBlocksFor new - totalBlocksFor old

/-- Modelled from the spec: the data-bitmap allocator returns the lowest
clear bit (none when the bitmap is full — `alloc_data` panics there). -/
def allocData : List Bool → Option (Nat × List Bool)
  | [] => none
  | b :: rest =>
      if b then (allocData rest).map fun p => (p.1 + 1, b :: p.2)
      else some (0, true :: rest)

/-- `for _ in 0..blocks_needed { v.push(fs.alloc_data()) }`. -/
def allocMany (bm : List Bool) : Nat → Option (List Nat × List Bool)
  | 0 => some ([], bm)
  | k + 1 =>
      (allocData bm).bind fun p => (allocMany p.2 k).map fun q => (p.1 :: q.1, q.2)

/-- Modelled from the spec: `fs.dealloc_data(block_id)` clears the
block's bit in the data bitmap. -/
def deallocData (bm : List Bool) (i : Nat) : List Bool := bm.set i false

/-- `Inode::find_inode_id` (src/easy-fs/src/vfs.rs lines 57-72): id of
the first entry carrying `name`. -/
def find_inode_id : List DirEntry → List Nat → Option Nat
  | [], _ => none
  | e :: rest, nm => if e.name == nm then some e.inodeId else find_inode_id rest nm

/-- The scan loop of `remove_link_entry`: index of the first entry
carrying `name`. -/
def findEntryIdx : List DirEntry → List Nat → Nat → Option Nat
  | [], _, _ => none
  | e :: rest, nm, i => if e.name == nm then some i else findEntryIdx rest nm (i + 1)

/-- `Inode::insert_link_entry` (src/easy-fs/src/vfs.rs lines 198-236):
look up `old_name`; on success grow the directory by one entry (through
`increase_size`, which allocates `blocks_num_needed` fresh data blocks)
and append `{new_name, inode id of old}`; `none` when `old_name` is
absent — or when the allocator is exhausted, where the Rust code would
panic. -/
def insert_link_entry (fs : EFSState) (old_name new_name : List Nat) :
    Option (Nat × EFSState) :=
  (find_inode_id fs.root.entries old_name).bind fun lid =>
    (allocMany fs.bitmap (blocks_num_needed (32 * fs.root.entries.length)
        (32 * (fs.root.entries.length + 1)))).map fun p =>
      (lid, ⟨p.2, ⟨fs.root.entries ++ [⟨new_name, lid⟩], fs.root.blocks ++ p.1⟩⟩)

/-- `Inode::remove_link_entry` (src/easy-fs/src/vfs.rs lines 239-290):
find the first entry carrying `name`; if none return -1 and change
nothing; otherwise overwrite slot `remove_index` with the last entry,
shrink the directory by one entry (through `decrease_size`, which
recycles the blocks past `ceil(new_size/512)`) and return 0. -/
def remove_link_entry (fs : EFSState) (name : List Nat) : Int × EFSState :=
  let n := fs.root.entries.length
  match findEntryIdx fs.root.entries name 0 with
  | none => (-1, fs)
  | some i =>
      let last := fs.root.entries.getD (n - 1) ⟨[], 0⟩
      let kept := totalBlocksFor (32 * (n - 1))
      let recycled := fs.root.blocks.drop kept
      (0, ⟨recycled.foldl deallocData fs.bitmap,
        ⟨(fs.root.entries.set i last).take (n - 1), fs.root.blocks.take kept⟩⟩)

end EFS

namespace EFS

theorem findEntryIdx_shift (l : List DirEntry) (nm : List Nat) (k : Nat) :
    findEntryIdx l nm (k + 1) = (findEntryIdx l nm k).map fun i => i + 1 := by
  induction l generalizing k with
  | nil => rfl
  | cons e rest ih =>
      by_cases h : (e.name == nm) = true
      · simp [findEntryIdx, h]
      · simp [findEntryIdx, h, ih]

theorem findEntryIdx_none (l : List DirEntry) (nm : List Nat)
    (h : ∀ e ∈ l, e.name ≠ nm) : findEntryIdx l nm 0 = none := by
  induction l with
  | nil => rfl
  | cons e rest ih =>
      have he : (e.name == nm) = false := by
        simp [h e (List.mem_cons_self e rest)]
      have := ih fun x hx => h x (List.mem_cons_of_mem e hx)
      simp [findEntryIdx, he, findEntryIdx_shift, this]

theorem findEntryIdx_first (l : List DirEntry) (nm : List Nat) (i : Nat) (e : DirEntry)
    (hget : l.get? i = some e) (hname : e.name = nm)
    (hfirst : ∀ j e', j < i → l.get? j = some e' → e'.name ≠ nm) :
    findEntryIdx l nm 0 = some i := by
  induction l generalizing i with
  | nil => simp at hget
  | cons hd rest ih =>
      cases i with
      | zero =>
          have : hd = e := by simpa using hget
          subst this
          simp [findEntryIdx, hname]
      | succ i' =>
          have hhd : (hd.name == nm) = false := by
            simp [hfirst 0 hd (Nat.succ_pos i') rfl]
          have hrest := ih i' (by simpa using hget)
            (fun j e' hj hg => hfirst (j + 1) e' (by omega) (by simpa using hg))
          simp [findEntryIdx, hhd, findEntryIdx_shift, hrest]

/-- C8: for a root directory of n entries whose first occurrence of
`name` sits at index i, `remove_link_entry` overwrites slot i with the
last entry (index n-1), shrinks the directory from n to n-1 entries
(size n*32 to (n-1)*32) and returns 0; when no entry carries `name` it
returns -1 and leaves the state untouched. -/
theorem C8_remove_link_entry_spec (fs : EFSState) (nm : List Nat) :
    ((∀ e ∈ fs.root.entries, e.name ≠ nm) → remove_link_entry fs nm = (-1, fs))
    ∧ (∀ i e, fs.root.entries.get? i = some e → e.name = nm →
        (∀ j e', j < i → fs.root.entries.get? j = some e' → e'.name ≠ nm) →
        (remove_link_entry fs nm).1 = 0 ∧
        (remove_link_entry fs nm).2.root.entries =
          (fs.root.entries.set i
              (fs.root.entries.getD (fs.root.entries.length - 1) ⟨[], 0⟩)).take
            (fs.root.entries.length - 1) ∧
        (remove_link_entry fs nm).2.root.entries.length = fs.root.entries.length - 1) := by
  constructor
  · intro hnone
    unfold remove_link_entry
    rw [findEntryIdx_none fs.root.entries nm hnone]
  · intro i e hget hname hfirst
    have hfind := findEntryIdx_first fs.root.entries nm i e hget hname hfirst
    have hi : i < fs.root.entries.length := (List.get?_eq_some.mp hget).1
    unfold remove_link_entry
    rw [hfind]
    refine ⟨rfl, rfl, ?_⟩
    show ((fs.root.entries.set i _).take (fs.root.entries.length - 1)).length = _
    rw [List.length_take, List.length_set]
    omega

/-- Witness for C8: removing "b" from entries [a, b, c] swaps c into
slot 1 and shrinks to [a, c]; removing an absent name returns -1. -/
theorem C8_remove_link_entry_spec_witness :
    (remove_link_entry ⟨[true], ⟨[⟨[97], 1⟩, ⟨[98], 2⟩, ⟨[99], 3⟩], [5]⟩⟩ [98]).1 = 0
      ∧ (remove_link_entry ⟨[true], ⟨[⟨[97], 1⟩, ⟨[98], 2⟩, ⟨[99], 3⟩], [5]⟩⟩ [98]).2.root.entries
        = [⟨[97], 1⟩, ⟨[99], 3⟩]
      ∧ remove_link_entry ⟨[true], ⟨[⟨[97], 1⟩, ⟨[98], 2⟩, ⟨[99], 3⟩], [5]⟩⟩ [100]
        = (-1, ⟨[true], ⟨[⟨[97], 1⟩, ⟨[98], 2⟩, ⟨[99], 3⟩], [5]⟩⟩) := by
  have h := (C8_remove_link_entry_spec ⟨[true], ⟨[⟨[97], 1⟩, ⟨[98], 2⟩, ⟨[99], 3⟩], [5]⟩⟩
    [98]).2 1 ⟨[98], 2⟩ (by decide) (by decide)
    (fun j e' hj hg => by
      interval_cases j
      · simp at hg
        rw [← hg]
        decide)
  have habs := (C8_remove_link_entry_spec ⟨[true], ⟨[⟨[97], 1⟩, ⟨[98], 2⟩, ⟨[99], 3⟩], [5]⟩⟩
    [100]).1 (by decide)
  refine ⟨h.1, ?_, habs⟩
  rw [h.2.1]
  decide

end EFS

namespace EFS

theorem allocData_spec (bm : List Bool) :
    ∀ i bm1, allocData bm = some (i, bm1) →
      i < bm.length ∧ bm.getD i false = false ∧ bm1 = bm.set i true := by
  induction bm with
  | nil => intro i bm1 h; exact absurd h (by simp [allocData])
  | cons hd rest ih =>
      intro i bm1 h
      cases hhd : hd with
      | false =>
          rw [allocData, hhd] at h
          simp at h
          obtain ⟨rfl, rfl⟩ := h
          exact ⟨by simp, rfl, rfl⟩
      | true =>
          rw [allocData, hhd] at h
          simp only [if_true] at h
          cases hrest : allocData rest with
          | none => rw [hrest] at h; exact absurd h (by simp)
          | some p =>
              rw [hrest] at h
              simp at h
              obtain ⟨rfl, rfl⟩ := h
              rcases ih p.1 p.2 (by rw [hrest]) with ⟨h1, h2, h3⟩
              exact ⟨by simpa using h1, h2, by rw [h3]; rfl⟩

theorem set_false_comm (bm : List Bool) (i j : Nat) :
    (bm.set i false).set j false = (bm.set j false).set i false := by
  by_cases h : i = j
  · subst h
    rfl
  · exact List.set_comm false false bm h

theorem foldl_dealloc_set (l : List Nat) :
    ∀ (bm : List Bool) (i : Nat),
      l.foldl deallocData (bm.set i false) = (l.foldl deallocData bm).set i false := by
  induction l with
  | nil => intro bm i; rfl
  | cons j rest ih =>
      intro bm i
      show rest.foldl deallocData (deallocData (bm.set i false) j) =
        (rest.foldl deallocData (deallocData bm j)).set i false
      rw [show deallocData (bm.set i false) j = (deallocData bm j).set i false from
        set_false_comm bm i j]
      exact ih (deallocData bm j) i

theorem alloc_dealloc_roundtrip :
    ∀ (k : Nat) (bm : List Bool) (bs : List Nat) (bm1 : List Bool),
      allocMany bm k = some (bs, bm1) → bs.foldl deallocData bm1 = bm := by
  intro k
  induction k with
  | zero =>
      intro bm bs bm1 h
      simp [allocMany] at h
      obtain ⟨rfl, rfl⟩ := h
      rfl
  | succ k ih =>
      intro bm bs bm1 h
      rw [allocMany] at h
      cases hal : allocData bm with
      | none => rw [hal] at h; exact absurd h (by simp)
      | some p =>
          rw [hal, Option.some_bind] at h
          cases hmany : allocMany p.2 k with
          | none => rw [hmany] at h; exact absurd h (by simp)
          | some q =>
              rw [hmany] at h
              simp at h
              obtain ⟨rfl, rfl⟩ := h
              rcases allocData_spec bm p.1 p.2 (by rw [hal]) with ⟨hlt, hfalse, hset⟩
              show q.1.foldl deallocData (deallocData q.2 p.1) = bm
              rw [show deallocData q.2 p.1 = q.2.set p.1 false from rfl,
                foldl_dealloc_set q.1 q.2 p.1, ih p.2 q.1 q.2 (by rw [hmany]), hset,
                List.set_set]
              have := OS.set_getD_self bm p.1 false hlt
              rw [hfalse] at this
              exact this

theorem findEntryIdx_append_last (l : List DirEntry) (x : DirEntry) (nm : List Nat)
    (h : ∀ e ∈ l, e.name ≠ nm) (hx : x.name = nm) :
    findEntryIdx (l ++ [x]) nm 0 = some l.length := by
  induction l with
  | nil => simp [findEntryIdx, hx]
  | cons e rest ih =>
      have he : (e.name == nm) = false := by
        simp [h e (List.mem_cons_self e rest)]
      have := ih fun y hy => h y (List.mem_cons_of_mem e hy)
      simp [findEntryIdx, he, findEntryIdx_shift, this]

theorem remove_link_entry_found (fs : EFSState) (nm : List Nat) (i : Nat)
    (hfind : findEntryIdx fs.root.entries nm 0 = some i) :
    remove_link_entry fs nm =
      (0, ⟨(fs.root.blocks.drop (totalBlocksFor (32 * (fs.root.entries.length - 1)))).foldl
            deallocData fs.bitmap,
        ⟨(fs.root.entries.set i
            (fs.root.entries.getD (fs.root.entries.length - 1) ⟨[], 0⟩)).take
          (fs.root.entries.length - 1),
          fs.root.blocks.take (totalBlocksFor (32 * (fs.root.entries.length - 1)))⟩⟩) := by
  unfold remove_link_entry
  rw [hfind]

/-- C7: starting from a root directory that holds an entry named `a`,
none named `b`, and whose allocated blocks exactly cover its size,
`insert_link_entry a b` followed by `remove_link_entry b` is the
identity on the filesystem state — directory contents, the directory's
block list and the data bitmap all return to their initial values
(whenever the link succeeded, which only fails if `a` is absent or the
allocator is exhausted). -/
theorem C7_link_unlink_roundtrip (fs : EFSState) (a b : List Nat)
    (hB : ∀ e ∈ fs.root.entries, e.name ≠ b)
    (hblocks : fs.root.blocks.length = totalBlocksFor (32 * fs.root.entries.length)) :
    ∀ lid fs1, insert_link_entry fs a b = some (lid, fs1) →
      remove_link_entry fs1 b = (0, fs) := by
  intro lid fs1 hins
  unfold insert_link_entry at hins
  cases hfind : find_inode_id fs.root.entries a with
  | none => rw [hfind] at hins; exact absurd hins (by simp)
  | some aid =>
      rw [hfind, Option.some_bind] at hins
      cases halloc : allocMany fs.bitmap
          (blocks_num_needed (32 * fs.root.entries.length)
            (32 * (fs.root.entries.length + 1))) with
      | none => rw [halloc] at hins; exact absurd hins (by simp)
      | some p =>
          rw [halloc] at hins
          simp at hins
          obtain ⟨rfl, rfl⟩ := hins
          have hfindb : findEntryIdx (fs.root.entries ++ [⟨b, aid⟩]) b 0 =
              some fs.root.entries.length :=
            findEntryIdx_append_last fs.root.entries ⟨b, aid⟩ b hB rfl
          rw [remove_link_entry_found
            (⟨p.2, ⟨fs.root.entries ++ [(⟨b, aid⟩ : DirEntry)], fs.root.blocks ++ p.1⟩⟩ :
              EFSState)
            b fs.root.entries.length hfindb]
          dsimp only
          rw [show (fs.root.entries ++ [(⟨b, aid⟩ : DirEntry)]).length - 1 =
            fs.root.entries.length from by simp]
          rw [OS.set_getD_self (fs.root.entries ++ [(⟨b, aid⟩ : DirEntry)])
            fs.root.entries.length (⟨[], 0⟩ : DirEntry) (by simp)]
          rw [List.take_left, ← hblocks, List.drop_left, List.take_left,
            alloc_dealloc_roundtrip _ fs.bitmap p.1 p.2 (by rw [halloc])]

end EFS

namespace EFS

/-- Witness for C7: a one-entry root directory; linking "a"→"b" and
unlinking "b" restores the exact state. -/
theorem C7_link_unlink_roundtrip_witness :
    remove_link_entry ⟨[true, false], ⟨[⟨[97], 1⟩, ⟨[98], 1⟩], [5]⟩⟩ [98]
      = (0, ⟨[true, false], ⟨[⟨[97], 1⟩], [5]⟩⟩) :=
  C7_link_unlink_roundtrip ⟨[true, false], ⟨[⟨[97], 1⟩], [5]⟩⟩ [97] [98]
    (by decide) (by decide) 1 ⟨[true, false], ⟨[⟨[97], 1⟩, ⟨[98], 1⟩], [5]⟩⟩ (by decide)

end EFS

namespace OS

/-! ### `sys_linkat` (src/os/src/syscall/fs.rs lines 171-230) -/

/-- The name-copy loop of `sys_linkat`/`sys_unlinkat`: at most
`NAME_LENGTH_LIMIT = 27` bytes are read from the user buffers and the
copy stops at the first NUL. -/
def extractName (bytes : List Nat) : List Nat :=
  (bytes.take 27).takeWhile fun b => b != 0

/-- The comparison loop (`for location in 0..NAME_LENGTH_LIMIT`) over
the two zero-padded name arrays: a differing byte makes the names
different, a common NUL ends the scan, otherwise advance.  `loc` is
`location`, the fuel is the remaining number of iterations. -/
def namesDifferAux (o n : List Nat) : Nat → Nat → Bool
  | _, 0 => false
  | loc, fuel + 1 =>
      if o.getD loc 0 != n.getD loc 0 then true
      else if o.getD loc 0 == 0 then false
      else namesDifferAux o n (loc + 1) fuel

def namesDiffer (o n : List Nat) : Bool := namesDifferAux o n 0 27

/-- Modelled from the spec: `create_link(old, new)` of the os `fs`
module asks the root inode for `insert_link_entry`; its `Option` result
is dropped on the floor by `sys_linkat`. -/
def create_link (fs : EFS.EFSState) (old_name new_name : List Nat) : EFS.EFSState :=
  match EFS.insert_link_entry fs old_name new_name with
  | some p => p.2
  | none => fs

/-- `sys_linkat` (src/os/src/syscall/fs.rs lines 171-230): extract both
names, return -1 when they are equal, otherwise call `create_link` and
return 0 regardless of its outcome. -/
def sys_linkat (fs : EFS.EFSState) (oldBytes newBytes : List Nat) : Int × EFS.EFSState :=
  if !(namesDiffer (extractName oldBytes) (extractName newBytes)) then (-1, fs)
  else (0, create_link fs (extractName oldBytes) (extractName newBytes))

theorem getD_eq_of_get? {α : Type} (l : List α) (i : Nat) (a d : α)
    (h : l.get? i = some a) : l.getD i d = a := by
  simp [List.getD, ← List.get?_eq_getElem?, h]

theorem getD_eq_default_of_get? {α : Type} (l : List α) (i : Nat) (d : α)
    (h : l.get? i = none) : l.getD i d = d := by
  simp [List.getD, ← List.get?_eq_getElem?, h]

theorem drop_eq_cons_of_get? {α : Type} (l : List α) (i : Nat) (a : α)
    (h : l.get? i = some a) : l.drop i = a :: l.drop (i + 1) := by
  have hi : i < l.length := (List.get?_eq_some.mp h).1
  rw [List.drop_eq_getElem_cons hi]
  have : l[i] = a := by
    have := List.get?_eq_getElem? l i
    rw [h] at this
    exact (List.getElem?_eq_some.mp this.symm).2
  rw [this]

theorem namesDifferAux_spec (o n : List Nat)
    (ho : ∀ x ∈ o, x ≠ 0) (hn : ∀ x ∈ n, x ≠ 0) :
    ∀ (fuel loc : Nat), o.length ≤ loc + fuel → n.length ≤ loc + fuel →
      (namesDifferAux o n loc fuel = false ↔ o.drop loc = n.drop loc) := by
  intro fuel
  induction fuel with
  | zero =>
      intro loc h1 h2
      constructor
      · intro _
        rw [List.drop_eq_nil_of_le (by omega), List.drop_eq_nil_of_le (by omega)]
      · intro _
        rfl
  | succ f ih =>
      intro loc h1 h2
      cases hgo : o.get? loc with
      | none =>
          have hdo : o.getD loc 0 = 0 := getD_eq_default_of_get? o loc 0 hgo
          have hlo : o.length ≤ loc := List.get?_eq_none.mp hgo
          cases hgn : n.get? loc with
          | none =>
              have hdn : n.getD loc 0 = 0 := getD_eq_default_of_get? n loc 0 hgn
              have hln : n.length ≤ loc := List.get?_eq_none.mp hgn
              rw [namesDifferAux, hdo, hdn]
              simp [List.drop_eq_nil_of_le hlo, List.drop_eq_nil_of_le hln]
          | some b =>
              have hdn : n.getD loc 0 = b := getD_eq_of_get? n loc b 0 hgn
              have hb : b ≠ 0 := hn b (List.get?_mem hgn)
              rw [namesDifferAux, hdo, hdn]
              have hbne : ((0 : Nat) != b) = true := by
                simp [bne_iff_ne]
                omega
              rw [hbne, if_pos rfl]
              constructor
              · intro hfalse
                exact absurd hfalse (by simp)
              · intro hdrop
                rw [List.drop_eq_nil_of_le hlo, drop_eq_cons_of_get? n loc b hgn] at hdrop
                exact absurd hdrop (by simp)
      | some a =>
          have hdo : o.getD loc 0 = a := getD_eq_of_get? o loc a 0 hgo
          have ha : a ≠ 0 := ho a (List.get?_mem hgo)
          cases hgn : n.get? loc with
          | none =>
              have hdn : n.getD loc 0 = 0 := getD_eq_default_of_get? n loc 0 hgn
              have hln : n.length ≤ loc := List.get?_eq_none.mp hgn
              rw [namesDifferAux, hdo, hdn]
              have hane : (a != (0 : Nat)) = true := by
                simp [bne_iff_ne]
                omega
              rw [hane, if_pos rfl]
              constructor
              · intro hfalse
                exact absurd hfalse (by simp)
              · intro hdrop
                rw [List.drop_eq_nil_of_le hln, drop_eq_cons_of_get? o loc a hgo] at hdrop
                exact absurd hdrop (by simp)
          | some b =>
              have hdn : n.getD loc 0 = b := getD_eq_of_get? n loc b 0 hgn
              have hb : b ≠ 0 := hn b (List.get?_mem hgn)
              rw [namesDifferAux, hdo, hdn]
              rw [drop_eq_cons_of_get? o loc a hgo, drop_eq_cons_of_get? n loc b hgn]
              by_cases hab : a = b
              · subst hab
                have he1 : (a != a) = false := by simp
                have he2 : (a == (0 : Nat)) = false := by
                  simp
                  omega
                rw [he1, if_neg (by simp : ¬(false = true)), he2,
                  if_neg (by simp : ¬(false = true))]
                rw [ih (loc + 1) (by omega) (by omega)]
                constructor
                · intro hdrop
                  rw [hdrop]
                · intro hcons
                  exact (List.cons.injEq _ _ _ _ ▸ hcons).2
              · have he1 : (a != b) = true := by simp [bne_iff_ne, hab]
                rw [he1, if_pos rfl]
                constructor
                · intro hfalse
                  exact absurd hfalse (by simp)
                · intro hcons
                  have := (List.cons.injEq _ _ _ _ ▸ hcons).1
                  exact absurd this hab

theorem extractName_no_zero (bytes : List Nat) : ∀ x ∈ extractName bytes, x ≠ 0 := by
  intro x hx
  have := List.mem_takeWhile_imp hx
  simpa [bne_iff_ne] using this

theorem extractName_length (bytes : List Nat) : (extractName bytes).length ≤ 27 := by
  have h1 : (extractName bytes).length ≤ (bytes.take 27).length :=
    List.IsPrefix.length_le ( List.takeWhile_prefix _)
  have h2 : (bytes.take 27).length ≤ 27 := by simp
  omega

theorem namesDiffer_eq_false_iff (o n : List Nat)
    (ho : ∀ x ∈ o, x ≠ 0) (hn : ∀ x ∈ n, x ≠ 0)
    (hlo : o.length ≤ 27) (hln : n.length ≤ 27) :
    namesDiffer o n = false ↔ o = n := by
  have := namesDifferAux_spec o n ho hn 27 0 (by omega) (by omega)
  simpa [namesDiffer] using this

end OS

namespace OS

/-- C10: `sys_linkat(old, new)` returns -1 and changes nothing when the
two NUL-terminated names are equal; whenever they differ it returns 0 —
also when no file named `old` exists, in which case no directory entry
is added because the failure of `insert_link_entry` is swallowed by
`create_link`. -/
theorem C10_linkat_spec (fs : EFS.EFSState) (oldBytes newBytes : List Nat) :
    (extractName oldBytes = extractName newBytes →
        sys_linkat fs oldBytes newBytes = (-1, fs))
    ∧ (extractName oldBytes ≠ extractName newBytes →
        (sys_linkat fs oldBytes newBytes).1 = 0
        ∧ (EFS.find_inode_id fs.root.entries (extractName oldBytes) = none →
            (sys_linkat fs oldBytes newBytes).2 = fs)) := by
  have hiff := namesDiffer_eq_false_iff (extractName oldBytes) (extractName newBytes)
    (extractName_no_zero oldBytes) (extractName_no_zero newBytes)
    (extractName_length oldBytes) (extractName_length newBytes)
  constructor
  · intro heq
    have hnd : namesDiffer (extractName oldBytes) (extractName newBytes) = false :=
      hiff.mpr heq
    unfold sys_linkat
    rw [hnd]
    simp
  · intro hne
    have hnd : namesDiffer (extractName oldBytes) (extractName newBytes) = true := by
      cases h : namesDiffer (extractName oldBytes) (extractName newBytes) with
      | false => exact absurd (hiff.mp h) hne
      | true => rfl
    unfold sys_linkat
    rw [hnd]
    refine ⟨rfl, ?_⟩
    intro hfind
    show create_link fs (extractName oldBytes) (extractName newBytes) = fs
    unfold create_link EFS.insert_link_entry
    rw [hfind, Option.none_bind]

/-- Witness for C10: on an empty root directory, linking a missing "a"
to "b" returns 0 without touching the state, and linking "a" to "a"
returns -1. -/
theorem C10_linkat_spec_witness :
    sys_linkat ⟨[false], ⟨[], []⟩⟩ [97, 0] [98, 0] = (0, ⟨[false], ⟨[], []⟩⟩)
      ∧ sys_linkat ⟨[false], ⟨[], []⟩⟩ [97, 0] [97, 0] = (-1, ⟨[false], ⟨[], []⟩⟩) := by
  have h1 := (C10_linkat_spec ⟨[false], ⟨[], []⟩⟩ [97, 0] [98, 0]).2 (by decide)
  have h2 := (C10_linkat_spec ⟨[false], ⟨[], []⟩⟩ [97, 0] [97, 0]).1 (by decide)
  exact ⟨Prod.ext h1.1 (h1.2 (by decide)), h2⟩

end OS
